import Mathlib

/-!
Verification development for the OxiDock backend (src-tauri).

The Rust sources under `src-tauri/src` are shallowly embedded below:
pure helpers become Lean functions, stateful code becomes explicit state
passing, Rust strings become Lean `String`s (byte contents as `List Nat`),
and fallible code returns `Except`.  Each definition carries a comment
naming the Rust item it embeds.
-/

namespace OxiDock

/-! ### errors.rs

The unified error enum `AppError` (errors.rs, lines 4-23).  Every variant
carries only a message string; there is no separate variant for
resolution, connection or authentication failures. -/

/-- Embeds `enum AppError` from `errors.rs`: the six variants, each holding
a message string. -/
inductive AppError where
  | Ssh : String → AppError
  | Sftp : String → AppError
  | KeyStore : String → AppError
  | SessionNotFound : String → AppError
  | Io : String → AppError
  | Other : String → AppError
deriving DecidableEq, Repr

/-- The variant tag of an `AppError`, i.e. the "typed kind" a caller can
match on without inspecting the message string. -/
inductive ErrKind where
  | ssh | sftp | keyStore | sessionNotFound | io | other
deriving DecidableEq, Repr

/-- Maps an `AppError` to its variant tag. -/
def AppError.kind : AppError → ErrKind
  | .Ssh _ => .ssh
  | .Sftp _ => .sftp
  | .KeyStore _ => .keyStore
  | .SessionNotFound _ => .sessionNotFound
  | .Io _ => .io
  | .Other _ => .other

/-! ### ssh_manager.rs — `SshSessionManager::connect`

`connect` (ssh_manager.rs, lines 105-174) is a sequence of fallible
stages (key decode, address resolution, transport connect, authentication).
Each stage's network/OS effect is external; what the code itself decides is
which `AppError` value each failing stage produces.  We embed that mapping:
a `ConnectStage` value says which stage failed (carrying the underlying
library error message) or that all stages succeeded. -/

/-- Outcome of running the fallible stages of `SshSessionManager::connect`:
which stage failed first (with the underlying error's message `m`), or
success with the freshly generated session id. -/
inductive ConnectStage where
  | keyDecodeFail : String → ConnectStage
  | resolveIoFail : String → ConnectStage
  | resolveEmpty : ConnectStage
  | connectFail : String → ConnectStage
  | authCallFail : String → ConnectStage
  | authRejected : ConnectStage
  | success : String → ConnectStage
deriving DecidableEq, Repr

/-- Embeds the error mapping of `SshSessionManager::connect`
(ssh_manager.rs, lines 105-174): each failing stage is wrapped into
`AppError::Ssh` with a stage-specific message prefix; on success the
session id is returned. -/
def connectResult : ConnectStage → Except AppError String
  | .keyDecodeFail m => .error (.Ssh ("Failed to decode key: " ++ m))
  | .resolveIoFail m => .error (.Ssh ("Failed to resolve host: " ++ m))
  | .resolveEmpty => .error (.Ssh "Could not resolve host address")
  | .connectFail m => .error (.Ssh ("Connection failed: " ++ m))
  | .authCallFail m => .error (.Ssh ("Auth failed: " ++ m))
  | .authRejected => .error (.Ssh "Authentication rejected by server")
  | .success sid => .ok sid

/-! ### ssh_manager.rs — `SshSession::sftp` (lazy SFTP channel)

`SshSession` holds `sftp: OnceCell<SftpSession>` and `SshSession::sftp`
(ssh_manager.rs, lines 41-87) calls `self.sftp.get_or_try_init(...)`.
`tokio::sync::OnceCell::get_or_try_init` serializes concurrent
initializers behind the cell's internal lock: if the cell already holds a
value the value is returned; otherwise one caller at a time runs the
initializer, an `Ok` result is stored in the cell, an `Err` result is
surfaced and leaves the cell unset.  We embed this as a state-passing
function; a list of calls (in an arbitrary serialization order, covering
every concurrent interleaving) is folded over the state.  Each call
carries the outcome its initializer would produce were it run. -/

/-- The SFTP channel is opaque to this development. -/
abbrev Channel := Nat

/-- The lazily initialized SFTP slot of one `SshSession`, plus an
instrumentation counter of how many times channel initialization has
executed (the spec's "instrumented stub counting setup invocations"). -/
structure SftpSlot where
  cell : Option Channel
  initCount : Nat
deriving DecidableEq, Repr

/-- A fresh session's slot: `OnceCell::new()`, no initialization run yet. -/
def freshSlot : SftpSlot := ⟨none, 0⟩

/-- Embeds one call to `SshSession::sftp` (ssh_manager.rs, lines 41-87),
i.e. `OnceCell::get_or_try_init`: a filled cell is returned as is; on an
empty cell the initializer runs (bumping the instrumentation counter) and
its `Ok` value is stored while an `Err` leaves the cell empty. -/
def sftpCall (st : SftpSlot) (outcome : Except AppError Channel) :
    SftpSlot × Except AppError Channel :=
  match st.cell with
  | some ch => (st, .ok ch)
  | none =>
    match outcome with
    | .ok ch => (⟨some ch, st.initCount + 1⟩, .ok ch)
    | .error e => (⟨none, st.initCount + 1⟩, .error e)

/-- Runs a list of `SshSession::sftp` calls in order.  Because
`OnceCell` serializes initializers, any set of concurrent callers is
observationally some such order. -/
def runSftpCalls (st : SftpSlot) :
    List (Except AppError Channel) → SftpSlot × List (Except AppError Channel)
  | [] => (st, [])
  | o :: os =>
    let p := sftpCall st o
    let q := runSftpCalls p.1 os
    (q.1, p.2 :: q.2)

/-! ### ssh_manager.rs — session registry

The manager holds `sessions: Mutex<HashMap<String, Arc<SshSession>>>`.
The registry is embedded as an association list with unique keys (the
`HashMap` invariant); sessions themselves are opaque here. -/

/-- Sessions are opaque for registry-level claims. -/
abbrev SessionHandle := Nat

/-- The registry: association list from session id to session handle. -/
abbrev Registry := List (String × SessionHandle)

/-- Embeds `SshSessionManager::disconnect` (ssh_manager.rs, lines
186-193): `sessions.remove(session_id)` removes the entry and returns
`Ok(())` when the id is present, otherwise the map is left unchanged and
`AppError::SessionNotFound` is returned. -/
def disconnect (sessions : Registry) (sessionId : String) :
    Registry × Except AppError Unit :=
  if (sessions.lookup sessionId).isSome then
    (sessions.eraseP (fun p => p.1 == sessionId), .ok ())
  else
    (sessions, .error (.SessionNotFound sessionId))

/-! ### base64 (external `base64` crate)

`sftp_ops.rs` encodes bytes with `base64::engine::general_purpose::STANDARD`
(padded, `+/` alphabet) and cache keys with `URL_SAFE_NO_PAD` (`-_`
alphabet, unpadded).  Standard RFC 4648 encoding of a byte list. -/

/-- Digit of the standard base64 alphabet. -/
def b64CharStd (n : Nat) : Char :=
  "ABCDEFGHIJKLMNOPQRSTUVWXYZabcdefghijklmnopqrstuvwxyz0123456789+/".data.getD n '='

/-- Digit of the URL-safe base64 alphabet. -/
def b64CharUrl (n : Nat) : Char :=
  "ABCDEFGHIJKLMNOPQRSTUVWXYZabcdefghijklmnopqrstuvwxyz0123456789-_".data.getD n '='

/-- RFC 4648 base64 encoding of a byte list over a given alphabet, with or
without `=` padding. -/
def b64Encode (alpha : Nat → Char) (pad : Bool) : List Nat → List Char
  | b1 :: b2 :: b3 :: rest =>
    alpha (b1 / 4) :: alpha (b1 % 4 * 16 + b2 / 16) ::
      alpha (b2 % 16 * 4 + b3 / 64) :: alpha (b3 % 64) :: b64Encode alpha pad rest
  | [b1, b2] =>
    [alpha (b1 / 4), alpha (b1 % 4 * 16 + b2 / 16), alpha (b2 % 16 * 4)] ++
      (if pad then ['='] else [])
  | [b1] => [alpha (b1 / 4), alpha (b1 % 4 * 16)] ++ (if pad then ['=', '='] else [])
  | [] => []

/-- `base64::engine::general_purpose::STANDARD` encoding as a `String`. -/
def b64Std (bytes : List Nat) : String := String.mk (b64Encode b64CharStd true bytes)

/-- `base64::engine::general_purpose::URL_SAFE_NO_PAD` encoding as a `String`. -/
def b64Url (bytes : List Nat) : String := String.mk (b64Encode b64CharUrl false bytes)

/-- UTF-8 bytes of a string, as `str::as_bytes` sees them. -/
def strBytes (s : String) : List Nat := s.toUTF8.toList.map (fun b => b.toNat)

/-! ### sftp_ops.rs — extension extraction and `is_image_ext`

`name.rsplit('.')` iterates the `'.'`-separated components of `name` from
the end; its `next()` is therefore the component after the last dot.
Splitting always yields at least one (possibly empty) component, so
`next()` is never `None`.  We embed the split itself and take the last
component of the forward split, which is the first of the reverse one. -/

/-- The `'.'`-separated components of a character list, in order; the
forward image of `str::split('.')` (never empty). -/
def splitOnDot : List Char → List (List Char)
  | [] => [[]]
  | c :: rest =>
    match splitOnDot rest with
    | [] => [[]]
    | h :: t => if c = '.' then [] :: h :: t else (c :: h) :: t

/-- Embeds `s.rsplit('.').next()`: the first item of the reverse split,
i.e. the last component of the forward split. -/
def rsplitNextDot (s : String) : Option String :=
  ((splitOnDot s.data).getLast?).map String.mk

/-- ASCII lowercasing, embedding `str::to_lowercase` on the ASCII strings
the claims range over (Rust lowercases full Unicode; on ASCII they agree). -/
def asciiLower (s : String) : String := String.mk (s.data.map Char.toLower)

/-- The image-extension allow-list of `is_image_ext`. -/
def imageExtAllowList : List String :=
  ["png", "jpg", "jpeg", "gif", "bmp", "webp", "avif", "heic", "svg"]

/-- Embeds `is_image_ext` (sftp_ops.rs, lines 88-94): lowercase the text
after the last `'.'` (the whole name when there is no dot, via
`unwrap_or("")` on the split) and test it against the fixed allow-list. -/
def is_image_ext (name : String) : Bool :=
  let ext := asciiLower ((rsplitNextDot name).getD "")
  ext == "png" || ext == "jpg" || ext == "jpeg" || ext == "gif" || ext == "bmp" ||
    ext == "webp" || ext == "avif" || ext == "heic" || ext == "svg"

/-! ### sftp_ops.rs — `list_dir` -/

/-- Embeds `struct FileEntry` (sftp_ops.rs, lines 77-85).  `modified` is
kept as the optional raw mtime in seconds; the code formats it to an
RFC 3339 string via `chrono`, a rendering no claim depends on. -/
structure FileEntry where
  name : String
  path : String
  is_dir : Bool
  size : Nat
  modified : Option Nat
  is_image : Bool
deriving DecidableEq, Repr

/-- A raw directory entry as the SFTP library hands it to `list_dir`:
file name plus the attributes the code reads (`is_dir`, optional size,
optional mtime in seconds). -/
structure RawEntry where
  name : String
  is_dir : Bool
  size : Option Nat
  mtime : Option Nat
deriving DecidableEq, Repr

/-- Embeds the child-path computation of `list_dir` (sftp_ops.rs, lines
117-121): join with exactly one `'/'`, tolerating a parent that already
ends in one. -/
def joinPath (path name : String) : String :=
  if path.data.getLast? = some '/' then path ++ name else path ++ "/" ++ name

/-- Embeds the per-entry record construction of `list_dir` (sftp_ops.rs,
lines 123-140): sizes default to 0, directories are never images,
non-directories are classified by `is_image_ext`. -/
def toFileEntry (path : String) (e : RawEntry) : FileEntry :=
  { name := e.name
    path := joinPath path e.name
    is_dir := e.is_dir
    size := e.size.getD 0
    modified := e.mtime
    is_image := if e.is_dir then false else is_image_ext e.name }

/-- Embeds `bool::cmp` (Rust orders `false < true`). -/
def boolCmp : Bool → Bool → Ordering
  | false, false => .eq
  | false, true => .lt
  | true, false => .gt
  | true, true => .eq

/-- Lexicographic comparison of character lists by code point, embedding
`str::cmp` (byte-lexicographic on UTF-8, which orders exactly like code
points). -/
def cmpChars : List Char → List Char → Ordering
  | [], [] => .eq
  | [], _ :: _ => .lt
  | _ :: _, [] => .gt
  | a :: as, b :: bs => (compare a.toNat b.toNat).then (cmpChars as bs)

/-- Embeds the comparator closure of `list_dir`'s sort (sftp_ops.rs,
lines 144-148): `b.is_dir.cmp(&a.is_dir).then_with(|| a.name.to_lowercase()
.cmp(&b.name.to_lowercase()))`. -/
def entryCmp (a b : FileEntry) : Ordering :=
  (boolCmp b.is_dir a.is_dir).then (cmpChars (asciiLower a.name).data (asciiLower b.name).data)

/-- The non-strict order induced by `entryCmp`, under which the stable
sort arranges entries. -/
def entryLE (a b : FileEntry) : Prop := entryCmp a b ≠ .gt

instance : DecidableRel entryLE := fun a b => by unfold entryLE; infer_instance

/-- Embeds `list_dir` (sftp_ops.rs, lines 97-161) given the raw entries
the SFTP `read_dir` returned: drop `"."` and `".."`, build the records,
then sort with the stable `Vec::sort_by`.  Over the total preorder
`entryLE` every stable sort returns the same list, so the stable
`insertionSort` is a faithful embedding of `sort_by`. -/
def list_dir (path : String) (entries : List RawEntry) : List FileEntry :=
  List.insertionSort entryLE
    ((entries.filter (fun e => !(e.name == "." || e.name == ".."))).map (toFileEntry path))

/-! ### sftp_ops.rs — `read_file_preview`

`read_file_preview` (sftp_ops.rs, lines 164-209) reads the whole file,
truncates the preview slice, classifies text/binary byte-wise, and returns
the slice either through `String::from_utf8_lossy` (text) or base64
(binary).  `from_utf8_lossy` is the std lossy UTF-8 decoder: well-formed
sequences decode to their scalar value, each maximal ill-formed subpart
becomes one U+FFFD replacement character. -/

/-- The U+FFFD replacement character. -/
def replChar : Char := Char.ofNat 0xFFFD

/-- True for a UTF-8 continuation byte `0x80..=0xBF`. -/
def isCont (b : Nat) : Bool := 0x80 ≤ b && b ≤ 0xBF

/-- Valid second byte of a three-byte sequence led by `b1`
(`E0: A0..BF`, `ED: 80..9F`, otherwise `80..BF`). -/
def cont3ok (b1 b2 : Nat) : Bool :=
  if b1 = 0xE0 then 0xA0 ≤ b2 && b2 ≤ 0xBF
  else if b1 = 0xED then 0x80 ≤ b2 && b2 ≤ 0x9F
  else isCont b2

/-- Valid second byte of a four-byte sequence led by `b1`
(`F0: 90..BF`, `F4: 80..8F`, otherwise `80..BF`). -/
def cont4ok (b1 b2 : Nat) : Bool :=
  if b1 = 0xF0 then 0x90 ≤ b2 && b2 ≤ 0xBF
  else if b1 = 0xF4 then 0x80 ≤ b2 && b2 ≤ 0x8F
  else isCont b2

/-- One step of the lossy UTF-8 decoder on a nonempty byte list: decode
the next well-formed sequence to its scalar, or consume one maximal
ill-formed subpart producing U+FFFD; returns the character and the
remaining bytes. -/
def nextCp : List Nat → Char × List Nat
  | [] => (replChar, [])
  | b1 :: t1 =>
    if b1 < 0x80 then (Char.ofNat b1, t1)
    else if b1 < 0xC2 then (replChar, t1)
    else if b1 ≤ 0xDF then
      match t1 with
      | [] => (replChar, [])
      | b2 :: t2 =>
        if isCont b2 then (Char.ofNat ((b1 - 0xC0) * 0x40 + (b2 - 0x80)), t2)
        else (replChar, b2 :: t2)
    else if b1 ≤ 0xEF then
      match t1 with
      | [] => (replChar, [])
      | b2 :: t2 =>
        if cont3ok b1 b2 then
          match t2 with
          | [] => (replChar, [])
          | b3 :: t3 =>
            if isCont b3 then
              (Char.ofNat ((b1 - 0xE0) * 0x1000 + (b2 - 0x80) * 0x40 + (b3 - 0x80)), t3)
            else (replChar, b3 :: t3)
        else (replChar, b2 :: t2)
    else if b1 ≤ 0xF4 then
      match t1 with
      | [] => (replChar, [])
      | b2 :: t2 =>
        if cont4ok b1 b2 then
          match t2 with
          | [] => (replChar, [])
          | b3 :: t3 =>
            if isCont b3 then
              match t3 with
              | [] => (replChar, [])
              | b4 :: t4 =>
                if isCont b4 then
                  (Char.ofNat ((b1 - 0xF0) * 0x40000 + (b2 - 0x80) * 0x1000 +
                      (b3 - 0x80) * 0x40 + (b4 - 0x80)), t4)
                else (replChar, b4 :: t4)
            else (replChar, b3 :: t3)
        else (replChar, b2 :: t2)
    else (replChar, t1)

/-- The decoder step consumes at least one byte. -/
theorem nextCp_length_lt (b : Nat) (t : List Nat) :
    (nextCp (b :: t)).2.length < (b :: t).length := by
  simp only [nextCp]
  repeat' split
  all_goals simp_all [List.length_cons]
  all_goals omega

/-- Embeds `String::from_utf8_lossy` (Rust std): decode UTF-8, replacing
each maximal ill-formed subpart by U+FFFD. -/
def utf8DecodeLossy : List Nat → List Char
  | [] => []
  | b :: t => (nextCp (b :: t)).1 :: utf8DecodeLossy (nextCp (b :: t)).2
termination_by l => l.length
decreasing_by apply nextCp_length_lt

/-- Embeds `struct FilePreview` (sftp_ops.rs, lines 569-575). -/
structure FilePreview where
  content : String
  is_text : Bool
  truncated : Bool
  total_size : Nat
deriving DecidableEq, Repr

/-- Embeds the byte predicate of the text heuristic (sftp_ops.rs, line
190): `b == b'\n' || b == b'\r' || b == b'\t' || (0x20 <= b && b <= 0x7E)
|| b >= 0x80`. -/
def is_text_byte (b : Nat) : Bool :=
  b == 10 || b == 13 || b == 9 || (0x20 ≤ b && b ≤ 0x7E) || 0x80 ≤ b

/-- Embeds `read_file_preview` (sftp_ops.rs, lines 164-209) applied to the
downloaded byte content `data`: slice to `maxBytes` when longer, classify
the slice, return it lossily UTF-8 decoded (text) or base64 (binary),
with the true total size. -/
def read_file_preview (data : List Nat) (maxBytes : Nat) : FilePreview :=
  let truncated := decide (maxBytes < data.length)
  let preview := if maxBytes < data.length then data.take maxBytes else data
  if preview.all is_text_byte then
    { content := String.mk (utf8DecodeLossy preview)
      is_text := true
      truncated := truncated
      total_size := data.length }
  else
    { content := b64Std preview
      is_text := false
      truncated := truncated
      total_size := data.length }

/-- Embeds the command wrapper `sftp_read_file_preview` (commands.rs,
lines 167-183): a missing `max_bytes` defaults to `64 * 1024`. -/
def sftp_read_file_preview (data : List Nat) (maxBytes : Option Nat) : FilePreview :=
  read_file_preview data (maxBytes.getD (64 * 1024))

/-! ### sftp_ops.rs — `evict_cache_lru`

`evict_cache_lru` (sftp_ops.rs, lines 20-74).  The filesystem enumeration
is embedded as the input list of regular files the directory scan
produced (path, size, mtime in seconds); whether `remove_file` succeeds
for a given path is the oracle `removeOk`. -/

/-- A regular cache file as the eviction scan records it: path, size in
bytes, modification time in seconds since the epoch. -/
structure CFile where
  path : String
  size : Nat
  mtime : Nat
deriving DecidableEq, Repr

/-- Total size summed over a file list (the scan's `total_size`). -/
def totalSize (files : List CFile) : Nat := (files.map CFile.size).sum

/-- Oldest-modified-first order used by `files.sort_by_key(|..| mtime)`. -/
def mtimeLE (a b : CFile) : Prop := a.mtime ≤ b.mtime

instance : DecidableRel mtimeLE := fun a b => by unfold mtimeLE; infer_instance

instance : IsTotal CFile mtimeLE := ⟨fun a b => Nat.le_total a.mtime b.mtime⟩

instance : IsTrans CFile mtimeLE := ⟨fun _ _ _ h h' => Nat.le_trans h h'⟩

/-- Embeds the deletion loop of `evict_cache_lru` (sftp_ops.rs, lines
57-65): walk the sorted list, stop as soon as `freed >= to_free`, attempt
`remove_file` on each file, count only successful removals toward
`freed`.  Returns the successfully removed files in removal order. -/
def evictLoop (removeOk : String → Bool) (toFree : Nat) :
    List CFile → Nat → List CFile
  | [], _ => []
  | f :: rest, freed =>
    if toFree ≤ freed then []
    else if removeOk f.path then f :: evictLoop removeOk toFree rest (freed + f.size)
    else evictLoop removeOk toFree rest freed

/-- Embeds `evict_cache_lru` (sftp_ops.rs, lines 20-74): sum the sizes,
return untouched when within budget, otherwise delete oldest-modified
first until the overage is freed.  `sort_by_key` is stable, and over the
total preorder `mtimeLE` every stable sort agrees with the stable
`insertionSort`.  Returns the list of files actually deleted. -/
def evict_cache_lru (removeOk : String → Bool) (files : List CFile)
    (maxBytes : Nat) : List CFile :=
  if totalSize files ≤ maxBytes then []
  else
    evictLoop removeOk (totalSize files - maxBytes)
      (List.insertionSort mtimeLE files) 0

/-! ### sftp_ops.rs — cache freshness (`get_thumbnail`, `cache_image`)

Both functions (sftp_ops.rs, lines 214-260 and 389-425) first compute a
deterministic cache-file name from the remote path, then decide between a
pure cache hit and a download from the cache file's existence and local
mtime.  The cache file is embedded as `Option CacheEntry` (existence,
local mtime in seconds, byte content); filesystem reads of an existing
file are modelled as succeeding. -/

/-- The deterministically named cache file for a remote path, when it
exists: its local modification time in seconds and its byte content. -/
structure CacheEntry where
  localMtime : Nat
  content : List Nat
deriving DecidableEq, Repr

/-- Embeds the freshness test shared by `get_thumbnail` (sftp_ops.rs,
lines 232-242) and `cache_image` (lines 406-425): fresh when the caller
supplied no remote mtime, or when the cache file's local mtime is at
least the supplied remote mtime. -/
def cacheFresh (localMtime : Nat) (remoteMtime : Option Nat) : Bool :=
  match remoteMtime with
  | some rm => decide (rm ≤ localMtime)
  | none => true

/-- Result of a thumbnail or cache-image request: whether a download was
performed and what was returned to the caller. -/
structure CacheOutcome where
  downloaded : Bool
  output : String
deriving DecidableEq, Repr

/-- Embeds the hit-or-download decision of `get_thumbnail` (sftp_ops.rs,
lines 214-260, 371): on a fresh existing cache file return its bytes
base64-encoded without downloading; otherwise download and process the
remote file (the decode/resize/encode pipeline is the opaque byte
function whose output is `processed`) and return that base64-encoded. -/
def get_thumbnail (cache : Option CacheEntry) (remoteMtime : Option Nat)
    (processed : List Nat) : CacheOutcome :=
  match cache with
  | some entry =>
    if cacheFresh entry.localMtime remoteMtime then
      { downloaded := false, output := b64Std entry.content }
    else
      { downloaded := true, output := b64Std processed }
  | none => { downloaded := true, output := b64Std processed }

/-- The deterministic cache-file path `cache_image` builds (sftp_ops.rs,
lines 397-403): URL-safe unpadded base64 of the remote path, dot, the
text after the remote path's last `'.'` (`"bin"` were the split ever
empty).  `cacheDir` is taken without a trailing separator, as
`PathBuf::join` then inserts exactly one. -/
def cacheImageFile (cacheDir path : String) : String :=
  cacheDir ++ "/" ++ b64Url (strBytes path) ++ "." ++ ((rsplitNextDot path).getD "bin")

/-- Embeds the hit-or-download decision of `cache_image` (sftp_ops.rs,
lines 389-454): on a fresh existing cache file return the cache file's
path without downloading; otherwise download the file verbatim and return
the same path after writing it. -/
def cache_image (cacheDir path : String) (cache : Option CacheEntry)
    (remoteMtime : Option Nat) : CacheOutcome :=
  match cache with
  | some entry =>
    if cacheFresh entry.localMtime remoteMtime then
      { downloaded := false, output := cacheImageFile cacheDir path }
    else
      { downloaded := true, output := cacheImageFile cacheDir path }
  | none => { downloaded := true, output := cacheImageFile cacheDir path }

/-! ### Specification-side definitions

These definitions spell out the spec's wording independently of the
embedded code, to be related to it by the theorems below. -/

/-- The spec's listing order: directories before non-directories, and
within each group case-insensitive ascending by name. -/
def dirsFirstCI (a b : FileEntry) : Prop :=
  (b.is_dir = true → a.is_dir = true) ∧
  (a.is_dir = b.is_dir →
    cmpChars (asciiLower a.name).data (asciiLower b.name).data ≠ .gt)

/-- The spec's notion of "file extension": the characters after the last
`'.'`, the whole name when there is none. -/
def afterLastDot : List Char → List Char
  | [] => []
  | c :: rest =>
    if '.' ∈ rest then afterLastDot rest
    else if c = '.' then rest
    else c :: rest

/-! ## Supporting lemmas -/

/-- A filled slot answers every later call with the stored channel and
never runs the initializer again. -/
theorem runSftpCalls_filled (st : SftpSlot) (c : Channel) (h : st.cell = some c)
    (outs : List (Except AppError Channel)) :
    runSftpCalls st outs = (st, outs.map (fun _ => .ok c)) := by
  induction outs with
  | nil => simp [runSftpCalls]
  | cons o os ih => simp [runSftpCalls, sftpCall, h, ih]

/-! ## C1 — at-most-once SFTP channel initialization -/

/-- C1: for every session, the SFTP channel is created at most once.  For
every nonempty serialization order of concurrent first-use calls whose
initializer would succeed, exactly one initialization executes
(`initCount = 1`) and every caller observes the same completed channel,
namely the one produced by the first call. -/
theorem sftp_channel_init_once (outs : List (Except AppError Channel))
    (hne : outs ≠ []) (hok : ∀ o ∈ outs, ∃ c, o = .ok c) :
    (runSftpCalls freshSlot outs).1.initCount = 1 ∧
    ∃ c, (runSftpCalls freshSlot outs).1.cell = some c ∧
      outs.head? = some (.ok c) ∧
      ∀ r ∈ (runSftpCalls freshSlot outs).2, r = .ok c := by
  match outs with
  | [] => exact absurd rfl hne
  | o :: os =>
    obtain ⟨c, rfl⟩ := hok o (List.mem_cons_self o os)
    have hstep : sftpCall freshSlot (.ok c) = (⟨some c, 1⟩, .ok c) := rfl
    have hrest := runSftpCalls_filled ⟨some c, 1⟩ c rfl os
    refine ⟨?_, c, ?_, rfl, ?_⟩
    · simp [runSftpCalls, hstep, hrest]
    · simp [runSftpCalls, hstep, hrest]
    · intro r hr
      simp only [runSftpCalls, hstep, hrest] at hr
      rcases List.mem_cons.1 hr with h | h
      · exact h
      · obtain ⟨x, _, hfx⟩ := List.mem_map.1 h
        exact hfx.symm

/-- Witness for C1 at a concrete two-caller trace. -/
theorem sftp_channel_init_once_witness :
    (runSftpCalls freshSlot ([.ok 5, .ok 7] : List (Except AppError Channel))).1.initCount = 1 ∧
    ∃ c, (runSftpCalls freshSlot
        ([.ok 5, .ok 7] : List (Except AppError Channel))).1.cell = some c ∧
      ([.ok 5, .ok 7] : List (Except AppError Channel)).head? = some (.ok c) ∧
      ∀ r ∈ (runSftpCalls freshSlot ([.ok 5, .ok 7] : List (Except AppError Channel))).2,
        r = .ok c :=
  sftp_channel_init_once [.ok 5, .ok 7] (List.cons_ne_nil _ _)
    (by rintro o ho
        rcases List.mem_cons.1 ho with h | h
        · exact ⟨5, h⟩
        · exact ⟨7, by simpa using h⟩)

/-! ## C8 — a failed channel initialization is not cached -/

/-- C8: a failed SFTP channel initialization is not cached.  After a call
whose initializer fails, the slot is still uninitialized and the error was
returned; the next call runs the initializer again (the counter advances
a second time) and, when it succeeds, fills the slot with its channel. -/
theorem sftp_channel_failure_not_cached (st : SftpSlot) (e : AppError)
    (c : Channel) (h : st.cell = none) :
    (sftpCall st (.error e)).1.cell = none ∧
    (sftpCall st (.error e)).2 = .error e ∧
    (sftpCall (sftpCall st (.error e)).1 (.ok c)).1.initCount = st.initCount + 2 ∧
    (sftpCall (sftpCall st (.error e)).1 (.ok c)).2 = .ok c ∧
    (sftpCall (sftpCall st (.error e)).1 (.ok c)).1.cell = some c := by
  simp [sftpCall, h]

/-- Witness for C8 on a fresh session with a failing then succeeding
initializer. -/
theorem sftp_channel_failure_not_cached_witness :
    (sftpCall freshSlot (.error (.Sftp "boom"))).1.cell = none ∧
    (sftpCall freshSlot (.error (.Sftp "boom"))).2 = .error (.Sftp "boom") ∧
    (sftpCall (sftpCall freshSlot (.error (.Sftp "boom"))).1 (.ok 7)).1.initCount =
      freshSlot.initCount + 2 ∧
    (sftpCall (sftpCall freshSlot (.error (.Sftp "boom"))).1 (.ok 7)).2 = .ok 7 ∧
    (sftpCall (sftpCall freshSlot (.error (.Sftp "boom"))).1 (.ok 7)).1.cell = some 7 :=
  sftp_channel_failure_not_cached freshSlot (.Sftp "boom") 7 rfl

/-! ## C7 — disconnect is exact and not idempotent -/

/-- A key absent from an association list's keys looks up to `none`. -/
theorem lookup_none_of_not_mem_keys (t : Registry) (k : String)
    (h : k ∉ t.map Prod.fst) : t.lookup k = none := by
  induction t with
  | nil => rfl
  | cons q r ih =>
    simp only [List.map_cons, List.mem_cons, not_or] at h
    cases q with
    | mk a b =>
      have hb : (k == a) = false := beq_eq_false_iff_ne.2 (by simpa using h.1)
      simp [List.lookup, hb, ih h.2]

/-- Erasing the entry of a key removes it from an association list whose
keys are distinct. -/
theorem lookup_eraseP_self (l : Registry) (sessionId : String)
    (hnd : (l.map Prod.fst).Nodup) :
    (l.eraseP (fun p => p.1 == sessionId)).lookup sessionId = none := by
  induction l with
  | nil => simp [List.eraseP]
  | cons p t ih =>
    simp only [List.map_cons, List.nodup_cons] at hnd
    by_cases hp : p.1 = sessionId
    · rw [List.eraseP_cons_of_pos (by simpa using hp)]
      exact lookup_none_of_not_mem_keys t sessionId (hp ▸ hnd.1)
    · rw [List.eraseP_cons_of_neg (by simpa using hp)]
      cases p with
      | mk a b =>
        have hb : (sessionId == a) = false :=
          beq_eq_false_iff_ne.2 (by simpa using fun he => hp (by simpa using he.symm))
        simp [List.lookup, hb, ih hnd.2]

/-- C7: `disconnect` removes the session and returns ok exactly when the
id is registered; on an unregistered id it fails with `SessionNotFound`
and leaves the registry unchanged, so a second disconnect of the same id
always fails (no idempotence). -/
theorem disconnect_spec (sessions : Registry) (sessionId : String)
    (hnd : (sessions.map Prod.fst).Nodup) :
    ((sessions.lookup sessionId).isSome = true →
      (disconnect sessions sessionId).2 = .ok () ∧
      ((disconnect sessions sessionId).1.lookup sessionId) = none ∧
      (disconnect (disconnect sessions sessionId).1 sessionId).2 =
        .error (.SessionNotFound sessionId)) ∧
    ((sessions.lookup sessionId).isSome = false →
      disconnect sessions sessionId = (sessions, .error (.SessionNotFound sessionId))) := by
  constructor
  · intro hreg
    have h1 : (disconnect sessions sessionId).1 =
        sessions.eraseP (fun p => p.1 == sessionId) := by
      simp [disconnect, hreg]
    have h2 := lookup_eraseP_self sessions sessionId hnd
    refine ⟨by simp [disconnect, hreg], by rw [h1]; exact h2, ?_⟩
    rw [h1]
    simp [disconnect, h2]
  · intro hmiss
    simp [disconnect, hmiss]

/-- Witness for C7: a registered id disconnects once and then fails. -/
theorem disconnect_spec_witness :
    (disconnect [("a", 1)] "a").2 = .ok () ∧
    (disconnect (disconnect [("a", 1)] "a").1 "a").2 = .error (.SessionNotFound "a") ∧
    disconnect [("a", 1)] "b" = ([("a", 1)], .error (.SessionNotFound "b")) := by
  have h := disconnect_spec [("a", 1)] "a" (by decide)
  have h' := disconnect_spec [("a", 1)] "b" (by decide)
  exact ⟨(h.1 (by decide)).1, (h.1 (by decide)).2.2, h'.2 (by decide)⟩

/-! ## C6 — connect error taxonomy -/

/-- C6 counterexample: a transport-connect failure and an authentication
rejection are NOT different typed results: both are the `Ssh` variant of
`AppError` (the same `kind`), differing only in their message strings. -/
theorem connect_auth_same_typed_kind :
    connectResult (.connectFail "refused") =
      .error (.Ssh "Connection failed: refused") ∧
    connectResult .authRejected =
      .error (.Ssh "Authentication rejected by server") ∧
    (AppError.Ssh "Connection failed: refused").kind =
      (AppError.Ssh "Authentication rejected by server").kind ∧
    (AppError.Ssh "Connection failed: refused").kind =
      (AppError.Ssh "Failed to decode key: bad").kind :=
  ⟨rfl, rfl, rfl, rfl⟩

/-- C6 amended: `connect` fails at each stage — resolution (both the
resolver erroring and it yielding no address), transport connect,
authentication (both the auth call erroring and a rejection), and
stored-key decoding — but every one of these failures is reported through
the single `Ssh` error variant with a stage-specific message prefix; the
stages are distinguishable only by message string, not as different typed
kinds.  Only errors such as `SessionNotFound` are distinct typed kinds. -/
theorem connect_error_stages (m : String) :
    connectResult (.resolveIoFail m) = .error (.Ssh ("Failed to resolve host: " ++ m)) ∧
    connectResult .resolveEmpty = .error (.Ssh "Could not resolve host address") ∧
    connectResult (.connectFail m) = .error (.Ssh ("Connection failed: " ++ m)) ∧
    connectResult (.authCallFail m) = .error (.Ssh ("Auth failed: " ++ m)) ∧
    connectResult .authRejected = .error (.Ssh "Authentication rejected by server") ∧
    connectResult (.keyDecodeFail m) = .error (.Ssh ("Failed to decode key: " ++ m)) ∧
    (∀ s, (AppError.Ssh s).kind = .ssh) ∧
    (∀ s, (AppError.SessionNotFound s).kind ≠ .ssh) :=
  ⟨rfl, rfl, rfl, rfl, rfl, rfl, fun _ => rfl, fun _ h => by cases h⟩

/-! ## C3 — cache freshness gates the download -/

/-- C3: for every remote path whose deterministically named cache file
exists, if the entry is fresh — no remote mtime supplied, or local mtime
at least the remote mtime — then `get_thumbnail` returns the cached bytes
base64-encoded and `cache_image` returns the cache file's path, neither
downloading; if the local mtime is strictly below the supplied remote
mtime, both re-download. -/
theorem cache_freshness_spec (entry : CacheEntry) (remoteMtime : Option Nat)
    (processed : List Nat) (cacheDir path : String) :
    ((remoteMtime = none ∨ ∃ rm, remoteMtime = some rm ∧ rm ≤ entry.localMtime) →
      get_thumbnail (some entry) remoteMtime processed =
        { downloaded := false, output := b64Std entry.content } ∧
      cache_image cacheDir path (some entry) remoteMtime =
        { downloaded := false, output := cacheImageFile cacheDir path }) ∧
    (∀ rm, remoteMtime = some rm → entry.localMtime < rm →
      (get_thumbnail (some entry) remoteMtime processed).downloaded = true ∧
      (cache_image cacheDir path (some entry) remoteMtime).downloaded = true) := by
  constructor
  · rintro (rfl | ⟨rm, rfl, hle⟩)
    · exact ⟨rfl, rfl⟩
    · constructor
      · simp [get_thumbnail, cacheFresh, hle]
      · simp [cache_image, cacheFresh, hle]
  · rintro rm rfl hlt
    have hstale : ¬ rm ≤ entry.localMtime := by omega
    constructor
    · simp [get_thumbnail, cacheFresh, hstale]
    · simp [cache_image, cacheFresh, hstale]

/-- Witness for C3: a fresh hit (no download) and a stale entry (download)
at concrete mtimes. -/
theorem cache_freshness_spec_witness :
    get_thumbnail (some ⟨10, [1, 2, 3]⟩) (some 5) [9] =
      { downloaded := false, output := b64Std [1, 2, 3] } ∧
    cache_image "/c" "a.png" (some ⟨10, [1, 2, 3]⟩) (some 5) =
      { downloaded := false, output := cacheImageFile "/c" "a.png" } ∧
    (get_thumbnail (some ⟨3, [1, 2, 3]⟩) (some 5) [9]).downloaded = true ∧
    (cache_image "/c" "a.png" (some ⟨3, [1, 2, 3]⟩) (some 5)).downloaded = true := by
  have hfresh := (cache_freshness_spec ⟨10, [1, 2, 3]⟩ (some 5) [9] "/c" "a.png").1
    (Or.inr ⟨5, rfl, by decide⟩)
  have hstale := (cache_freshness_spec ⟨3, [1, 2, 3]⟩ (some 5) [9] "/c" "a.png").2
    5 rfl (by decide)
  exact ⟨hfresh.1, hfresh.2, hstale.1, hstale.2⟩

/-! ## C2 — LRU eviction sweep -/

/-- Characterization of the eviction loop: the deleted files are exactly
the successful removals within some prefix of the scan list; the loop ran
through every earlier position with the freed total still below the
target, and it stopped either at the list's end or once the target was
reached. -/
theorem evictLoop_char (removeOk : String → Bool) (toFree : Nat) :
    ∀ (l : List CFile) (freed : Nat),
      ∃ k, k ≤ l.length ∧
        evictLoop removeOk toFree l freed =
          (l.take k).filter (fun f => removeOk f.path) ∧
        (∀ j < k,
          freed + totalSize ((l.take j).filter (fun f => removeOk f.path)) < toFree) ∧
        (k = l.length ∨
          toFree ≤ freed + totalSize ((l.take k).filter (fun f => removeOk f.path))) := by
  intro l
  induction l with
  | nil =>
    intro freed
    exact ⟨0, Nat.le_refl _, rfl, fun j hj => absurd hj (Nat.not_lt_zero j), Or.inl rfl⟩
  | cons f rest ih =>
    intro freed
    by_cases hstop : toFree ≤ freed
    · refine ⟨0, Nat.zero_le _, ?_, fun j hj => absurd hj (Nat.not_lt_zero j), Or.inr ?_⟩
      · simp [evictLoop, hstop]
      · simpa [totalSize] using hstop
    · by_cases hok : removeOk f.path
      · obtain ⟨k, hkle, heq, hlt, hend⟩ := ih (freed + f.size)
        refine ⟨k + 1, by simpa using Nat.succ_le_succ hkle, ?_, ?_, ?_⟩
        · rw [show evictLoop removeOk toFree (f :: rest) freed =
              f :: evictLoop removeOk toFree rest (freed + f.size) by
                simp [evictLoop, hstop, hok]]
          rw [heq, List.take_succ_cons, List.filter_cons_of_pos (by simpa using hok)]
        · intro j hj
          match j with
          | 0 =>
            simpa [totalSize] using Nat.lt_of_not_le hstop
          | j' + 1 =>
            have h := hlt j' (by omega)
            rw [List.take_succ_cons, List.filter_cons_of_pos (by simpa using hok)]
            simp only [totalSize, List.map_cons, List.sum_cons] at h ⊢
            omega
        · rcases hend with h | h
          · exact Or.inl (by simp [h])
          · refine Or.inr ?_
            rw [List.take_succ_cons, List.filter_cons_of_pos (by simpa using hok)]
            simp only [totalSize, List.map_cons, List.sum_cons] at h ⊢
            omega
      · obtain ⟨k, hkle, heq, hlt, hend⟩ := ih freed
        refine ⟨k + 1, by simpa using Nat.succ_le_succ hkle, ?_, ?_, ?_⟩
        · rw [show evictLoop removeOk toFree (f :: rest) freed =
              evictLoop removeOk toFree rest freed by simp [evictLoop, hstop, hok]]
          rw [heq, List.take_succ_cons,
            List.filter_cons_of_neg (by simpa using hok)]
        · intro j hj
          match j with
          | 0 =>
            simpa [totalSize] using Nat.lt_of_not_le hstop
          | j' + 1 =>
            have h := hlt j' (by omega)
            rw [List.take_succ_cons, List.filter_cons_of_neg (by simpa using hok)]
            exact h
        · rcases hend with h | h
          · exact Or.inl (by simp [h])
          · refine Or.inr ?_
            rw [List.take_succ_cons, List.filter_cons_of_neg (by simpa using hok)]
            exact h

/-- C2: one eviction sweep first sums the regular files' sizes; a
directory within budget is untouched; otherwise files are deleted
oldest-modification-time first — the deleted list is the set of
successful removals within a minimal prefix of the mtime-sorted scan,
every file attempted before the stop saw the freed bytes still short of
the overage, and the sweep stops once freed bytes reach the overage
(total minus budget) or the files run out; a file whose removal fails is
skipped (never deleted, never counted) without aborting the sweep. -/
theorem evict_cache_lru_spec (removeOk : String → Bool) (files : List CFile)
    (maxBytes : Nat) :
    (totalSize files ≤ maxBytes → evict_cache_lru removeOk files maxBytes = []) ∧
    (maxBytes < totalSize files →
      (evict_cache_lru removeOk files maxBytes).Pairwise mtimeLE ∧
      (∀ f ∈ evict_cache_lru removeOk files maxBytes, removeOk f.path = true) ∧
      ∃ k, k ≤ (List.insertionSort mtimeLE files).length ∧
        evict_cache_lru removeOk files maxBytes =
          ((List.insertionSort mtimeLE files).take k).filter
            (fun f => removeOk f.path) ∧
        (∀ j < k, totalSize (((List.insertionSort mtimeLE files).take j).filter
            (fun f => removeOk f.path)) < totalSize files - maxBytes) ∧
        (k = (List.insertionSort mtimeLE files).length ∨
          totalSize files - maxBytes ≤
            totalSize (evict_cache_lru removeOk files maxBytes))) := by
  constructor
  · intro h
    simp [evict_cache_lru, h]
  · intro h
    have hn : ¬ totalSize files ≤ maxBytes := by omega
    obtain ⟨k, hkle, heq, hlt, hend⟩ :=
      evictLoop_char removeOk (totalSize files - maxBytes)
        (List.insertionSort mtimeLE files) 0
    have hres : evict_cache_lru removeOk files maxBytes =
        evictLoop removeOk (totalSize files - maxBytes)
          (List.insertionSort mtimeLE files) 0 := by
      simp [evict_cache_lru, hn]
    refine ⟨?_, ?_, k, hkle, by rw [hres, heq], ?_, ?_⟩
    · rw [hres, heq]
      exact List.Pairwise.sublist
        ((List.filter_sublist _).trans (List.take_sublist _ _))
        (List.sorted_insertionSort mtimeLE files)
    · intro f hf
      rw [hres, heq] at hf
      exact (List.mem_filter.1 hf).2
    · intro j hj
      simpa using hlt j hj
    · rcases hend with hk | hk
      · exact Or.inl hk
      · refine Or.inr ?_
        rw [hres, heq]
        simpa using hk

/-- Witness for C2: a 70-byte directory against a 50-byte budget loses
its oldest file only; a directory within budget is untouched. -/
theorem evict_cache_lru_spec_witness :
    evict_cache_lru (fun _ => true) [⟨"a", 30, 5⟩, ⟨"b", 40, 2⟩] 100 = [] ∧
    (evict_cache_lru (fun _ => true) [⟨"a", 30, 5⟩, ⟨"b", 40, 2⟩] 50).Pairwise mtimeLE ∧
    (∀ f ∈ evict_cache_lru (fun p => p != "b") [⟨"a", 30, 5⟩, ⟨"b", 40, 2⟩] 50,
      (fun p => p != "b") f.path = true) := by
  have h1 := (evict_cache_lru_spec (fun _ => true) [⟨"a", 30, 5⟩, ⟨"b", 40, 2⟩] 100).1
    (by decide)
  have h2 := ((evict_cache_lru_spec (fun _ => true) [⟨"a", 30, 5⟩, ⟨"b", 40, 2⟩] 50).2
    (by decide)).1
  have h3 := ((evict_cache_lru_spec (fun p => p != "b")
    [⟨"a", 30, 5⟩, ⟨"b", 40, 2⟩] 50).2 (by decide)).2.1
  exact ⟨h1, h2, h3⟩

/-! ## C4 — file preview -/

/-- On pure ASCII bytes the lossy UTF-8 decoder is the identity
embedding of bytes as characters. -/
theorem utf8DecodeLossy_ascii (l : List Nat) (h : ∀ b ∈ l, b < 0x80) :
    utf8DecodeLossy l = l.map Char.ofNat := by
  induction l with
  | nil => simp [utf8DecodeLossy]
  | cons b t ih =>
    have hb : b < 0x80 := h b (List.mem_cons_self b t)
    rw [utf8DecodeLossy]
    simp only [nextCp, if_pos hb]
    rw [ih (fun x hx => h x (List.mem_cons_of_mem b hx))]
    rfl

/-- The text-heuristic byte predicate, spelled as the spec does. -/
theorem is_text_byte_iff (b : Nat) : is_text_byte b = true ↔
    b = 10 ∨ b = 13 ∨ b = 9 ∨ (0x20 ≤ b ∧ b ≤ 0x7E) ∨ 0x80 ≤ b := by
  simp only [ is_text_byte, Bool.or_eq_true, beq_iff_eq, decide_eq_true_eq,
    Bool.and_eq_true]
  omega

/-- The previewed slice is always the first `min n maxBytes` bytes. -/
theorem preview_slice_eq (data : List Nat) (maxBytes : Nat) :
    (if maxBytes < data.length then data.take maxBytes else data) =
      data.take maxBytes := by
  by_cases h : maxBytes < data.length
  · rw [if_pos h]
  · rw [if_neg h, List.take_of_length_le (by omega)]

/-- C4 counterexample: the single byte `0x80` is classified as text (it
is `≥ 0x80`), yet the returned content is not that byte as-is — the lossy
UTF-8 decoding replaces it with U+FFFD. -/
theorem read_file_preview_not_as_is :
    (read_file_preview [0x80] (64 * 1024)).is_text = true ∧
    (read_file_preview [0x80] (64 * 1024)).content ≠ String.mk [Char.ofNat 0x80] := by
  constructor
  · decide
  · have h : (read_file_preview [0x80] (64 * 1024)).content = String.mk [replChar] := by
      simp [read_file_preview, utf8DecodeLossy, nextCp, is_text_byte, replChar]
    rw [h]
    decide

/-- C4 amended: `read_file_preview` (with `max_bytes` defaulting to
64 KiB) reports `truncated = (n > max_bytes)`, `total_size = n`, and
derives the content from exactly the first `min n max_bytes` bytes; that
slice is classified as text iff every byte is `\n`, `\r`, `\t`,
printable ASCII (0x20-0x7E) or `≥ 0x80`; a binary preview is returned
base64-encoded, while a text preview is returned decoded as UTF-8 with
ill-formed sequences replaced by U+FFFD — which is the slice as-is
whenever it is pure ASCII (and more generally valid UTF-8), but not for
ill-formed high bytes. -/
theorem read_file_preview_spec (data : List Nat) (maxBytes : Option Nat) :
    (sftp_read_file_preview data maxBytes).truncated =
      decide (maxBytes.getD (64 * 1024) < data.length) ∧
    (sftp_read_file_preview data maxBytes).total_size = data.length ∧
    ((sftp_read_file_preview data maxBytes).is_text = true ↔
      ∀ b ∈ data.take (maxBytes.getD (64 * 1024)),
        b = 10 ∨ b = 13 ∨ b = 9 ∨ (0x20 ≤ b ∧ b ≤ 0x7E) ∨ 0x80 ≤ b) ∧
    ((sftp_read_file_preview data maxBytes).is_text = true →
      (sftp_read_file_preview data maxBytes).content =
        String.mk (utf8DecodeLossy (data.take (maxBytes.getD (64 * 1024))))) ∧
    ((sftp_read_file_preview data maxBytes).is_text = false →
      (sftp_read_file_preview data maxBytes).content =
        b64Std (data.take (maxBytes.getD (64 * 1024)))) ∧
    ((sftp_read_file_preview data maxBytes).is_text = true →
      (∀ b ∈ data.take (maxBytes.getD (64 * 1024)), b < 0x80) →
      (sftp_read_file_preview data maxBytes).content =
        String.mk ((data.take (maxBytes.getD (64 * 1024))).map Char.ofNat)) := by
  unfold sftp_read_file_preview read_file_preview
  rw [preview_slice_eq]
  by_cases htext : (data.take (maxBytes.getD (64 * 1024))).all is_text_byte
  · rw [if_pos htext]
    refine ⟨rfl, rfl, ?_, fun _ => rfl, fun h => absurd h (by simp), ?_⟩
    · simp only [List.all_eq_true] at htext
      constructor
      · intro _ b hb
        exact (is_text_byte_iff b).1 (htext b hb)
      · intro _
        rfl
    · intro _ hascii
      rw [utf8DecodeLossy_ascii _ hascii]
  · rw [if_neg htext]
    refine ⟨rfl, rfl, ?_, fun h => absurd h (by simp), fun _ => rfl,
      fun h => absurd h (by simp)⟩
    constructor
    · intro h
      exact absurd h (by simp)
    · intro hall
      exact absurd (List.all_eq_true.2 (fun b hb => (is_text_byte_iff b).2 (hall b hb)))
        htext

/-- Witness for C4 (the spec's own example): `max_bytes = 5` on a 10-byte
ASCII file gives a truncated text preview of the first 5 bytes as-is. -/
theorem read_file_preview_spec_witness :
    (sftp_read_file_preview [104, 101, 108, 108, 111, 119, 111, 114, 108, 100]
      (some 5)).truncated = true ∧
    (sftp_read_file_preview [104, 101, 108, 108, 111, 119, 111, 114, 108, 100]
      (some 5)).total_size = 10 ∧
    (sftp_read_file_preview [104, 101, 108, 108, 111, 119, 111, 114, 108, 100]
      (some 5)).content = "hello" := by
  obtain ⟨h1, h2, h3, _, _, h6⟩ :=
    read_file_preview_spec [104, 101, 108, 108, 111, 119, 111, 114, 108, 100] (some 5)
  refine ⟨by rw [h1]; decide, by rw [h2]; rfl, ?_⟩
  have ht : (sftp_read_file_preview [104, 101, 108, 108, 111, 119, 111, 114, 108, 100]
      (some 5)).is_text = true := h3.2 (by decide)
  rw [h6 ht (by decide)]
  decide

/-! ## C5 — directory listing order -/

/-- Comparing naturals in the opposite order swaps the outcome. -/
theorem natCompare_swap (a b : Nat) : compare b a = (compare a b).swap := by
  rcases Nat.lt_trichotomy a b with h | h | h
  · rw [Nat.compare_eq_gt.2 h, Nat.compare_eq_lt.2 h]
    rfl
  · rw [Nat.compare_eq_eq.2 h, Nat.compare_eq_eq.2 h.symm]
    rfl
  · rw [Nat.compare_eq_lt.2 h, Nat.compare_eq_gt.2 h]
    rfl

/-- `Ordering.swap` distributes over `Ordering.then`. -/
theorem ordering_then_swap (x y : Ordering) : (x.then y).swap = x.swap.then y.swap := by
  cases x <;> rfl

/-- Comparing character lists in the opposite order swaps the outcome. -/
theorem cmpChars_swap : ∀ (a b : List Char), cmpChars b a = (cmpChars a b).swap
  | [], [] => rfl
  | [], _ :: _ => rfl
  | _ :: _, [] => rfl
  | x :: xs, y :: ys => by
    simp only [cmpChars]
    rw [ordering_then_swap, natCompare_swap x.toNat y.toNat, cmpChars_swap xs ys]

/-- The non-strict character-list order is total. -/
theorem cmpChars_total (x y : List Char) :
    cmpChars x y ≠ .gt ∨ cmpChars y x ≠ .gt := by
  by_cases h : cmpChars x y = .gt
  · refine Or.inr ?_
    rw [cmpChars_swap, h]
    simp [Ordering.swap]
  · exact Or.inl h

/-- The non-strict character-list order is transitive. -/
theorem cmpChars_le_trans : ∀ (a b c : List Char),
    cmpChars a b ≠ .gt → cmpChars b c ≠ .gt → cmpChars a c ≠ .gt
  | [], _, c, _, _ => by cases c <;> simp [cmpChars]
  | _ :: _, [], _, h1, _ => absurd rfl h1
  | _ :: _, _ :: _, [], _, h2 => absurd rfl h2
  | x :: xs, y :: ys, z :: zs, h1, h2 => by
    simp only [cmpChars] at h1 h2 ⊢
    rcases hxy : compare x.toNat y.toNat with _ | _ | _ <;> rw [hxy] at h1
    · rcases hyz : compare y.toNat z.toNat with _ | _ | _ <;> rw [hyz] at h2
      · have hxz : x.toNat < z.toNat :=
          Nat.lt_trans (Nat.compare_eq_lt.1 hxy) (Nat.compare_eq_lt.1 hyz)
        rw [Nat.compare_eq_lt.2 hxz]
        simp [Ordering.then]
      · have hxz : x.toNat < z.toNat :=
          Nat.compare_eq_eq.1 hyz ▸ Nat.compare_eq_lt.1 hxy
        rw [Nat.compare_eq_lt.2 hxz]
        simp [Ordering.then]
      · exact absurd rfl h2
    · rcases hyz : compare y.toNat z.toNat with _ | _ | _ <;> rw [hyz] at h2
      · have hxz : x.toNat < z.toNat :=
          Nat.compare_eq_eq.1 hxy ▸ Nat.compare_eq_lt.1 hyz
        rw [Nat.compare_eq_lt.2 hxz]
        simp [Ordering.then]
      · have hxz : x.toNat = z.toNat :=
          (Nat.compare_eq_eq.1 hxy).trans (Nat.compare_eq_eq.1 hyz)
        rw [Nat.compare_eq_eq.2 hxz]
        simp only [Ordering.then] at h1 h2 ⊢
        exact cmpChars_le_trans xs ys zs h1 h2
      · exact absurd rfl h2
    · exact absurd rfl h1

/-- The sort order of `list_dir` unfolded by the directory flags. -/
theorem entryLE_iff (a b : FileEntry) :
    entryLE a b ↔ ((a.is_dir = true ∧ b.is_dir = false) ∨
      (a.is_dir = b.is_dir ∧
        cmpChars (asciiLower a.name).data (asciiLower b.name).data ≠ .gt)) := by
  unfold entryLE entryCmp
  cases ha : a.is_dir <;> cases hb : b.is_dir <;>
    simp [boolCmp, Ordering.then]

/-- `entryLE` is total. -/
theorem entryLE_total : ∀ a b : FileEntry, entryLE a b ∨ entryLE b a := by
  intro a b
  rw [entryLE_iff, entryLE_iff]
  cases ha : a.is_dir <;> cases hb : b.is_dir
  · rcases cmpChars_total (asciiLower a.name).data (asciiLower b.name).data with h | h
    · exact Or.inl (Or.inr ⟨rfl, h⟩)
    · exact Or.inr (Or.inr ⟨rfl, h⟩)
  · exact Or.inr (Or.inl ⟨rfl, rfl⟩)
  · exact Or.inl (Or.inl ⟨rfl, rfl⟩)
  · rcases cmpChars_total (asciiLower a.name).data (asciiLower b.name).data with h | h
    · exact Or.inl (Or.inr ⟨rfl, h⟩)
    · exact Or.inr (Or.inr ⟨rfl, h⟩)

/-- `entryLE` is transitive. -/
theorem entryLE_trans : ∀ a b c : FileEntry,
    entryLE a b → entryLE b c → entryLE a c := by
  intro a b c hab hbc
  rw [entryLE_iff] at hab hbc ⊢
  rcases hab with ⟨ha, hb⟩ | ⟨hab_eq, hab_cmp⟩
  · rcases hbc with ⟨hb', _⟩ | ⟨hbc_eq, _⟩
    · exact absurd hb' (by rw [hb]; exact Bool.false_ne_true)
    · exact Or.inl ⟨ha, by rw [← hbc_eq]; exact hb⟩
  · rcases hbc with ⟨hb', hc⟩ | ⟨hbc_eq, hbc_cmp⟩
    · exact Or.inl ⟨by rw [hab_eq]; exact hb', hc⟩
    · exact Or.inr ⟨hab_eq.trans hbc_eq,
        cmpChars_le_trans _ _ _ hab_cmp hbc_cmp⟩

/-- The comparator order coincides with the spec's "directories first,
then case-insensitive by name" order. -/
theorem entryLE_iff_dirsFirstCI (a b : FileEntry) :
    entryLE a b ↔ dirsFirstCI a b := by
  rw [entryLE_iff]
  unfold dirsFirstCI
  cases ha : a.is_dir <;> cases hb : b.is_dir <;> simp

/-- C5: `list_dir` returns exactly the raw entries other than `"."` and
`".."` (as a permutation of their records), with no dot entries in the
output, sorted directories-first and case-insensitively by name within
each group; on the listing `["b.txt", "A"(dir), ".", ".."]` it returns
exactly `["A", "b.txt"]`. -/
theorem list_dir_spec :
    (∀ (path : String) (entries : List RawEntry),
      (list_dir path entries).Perm
        ((entries.filter (fun e => !(e.name == "." || e.name == ".."))).map
          (toFileEntry path)) ∧
      (∀ e ∈ list_dir path entries, e.name ≠ "." ∧ e.name ≠ "..") ∧
      (list_dir path entries).Pairwise dirsFirstCI) ∧
    (list_dir "/" [⟨"b.txt", false, some 3, none⟩, ⟨"A", true, none, none⟩,
        ⟨".", true, none, none⟩, ⟨"..", true, none, none⟩]).map FileEntry.name =
      ["A", "b.txt"] := by
  constructor
  · intro path entries
    refine ⟨List.perm_insertionSort entryLE _, ?_, ?_⟩
    · intro e he
      have hmem := (List.perm_insertionSort entryLE _).subset he
      obtain ⟨r, hr, rfl⟩ := List.mem_map.1 hmem
      have hkeep := (List.mem_filter.1 hr).2
      simp only [Bool.not_eq_eq_eq_not, Bool.not_true, Bool.or_eq_false_iff,
        beq_eq_false_iff_ne] at hkeep
      exact ⟨hkeep.1, hkeep.2⟩
    · have hs := @List.sorted_insertionSort FileEntry entryLE _
        ⟨entryLE_total⟩ ⟨entryLE_trans⟩
        ((entries.filter (fun e => !(e.name == "." || e.name == ".."))).map
          (toFileEntry path))
      exact List.Pairwise.imp (fun h => (entryLE_iff_dirsFirstCI _ _).1 h) hs
  · decide

/-- Witness for C5 at a concrete listing. -/
theorem list_dir_spec_witness :
    (list_dir "/" [⟨"x.txt", false, none, none⟩, ⟨".", true, none, none⟩]).Pairwise
      dirsFirstCI ∧
    (∀ e ∈ list_dir "/" [⟨"x.txt", false, none, none⟩, ⟨".", true, none, none⟩],
      e.name ≠ "." ∧ e.name ≠ "..") :=
  ⟨(list_dir_spec.1 "/" [⟨"x.txt", false, none, none⟩, ⟨".", true, none, none⟩]).2.2,
   (list_dir_spec.1 "/" [⟨"x.txt", false, none, none⟩, ⟨".", true, none, none⟩]).2.1⟩

/-! ## C9, C10 — extension handling -/

/-- Splitting on `'.'` always yields at least one component. -/
theorem splitOnDot_ne_nil : ∀ l : List Char, splitOnDot l ≠ []
  | [] => by simp [splitOnDot]
  | c :: rest => by
    simp only [splitOnDot]
    cases h : splitOnDot rest with
    | nil => simp
    | cons a t => by_cases hc : c = '.' <;> simp [hc]

/-- Without a dot, the whole list is the text after the last dot. -/
theorem afterLastDot_no_dot : ∀ l : List Char, '.' ∉ l → afterLastDot l = l
  | [], _ => rfl
  | c :: rest, h => by
    have hc : ¬ c = '.' := fun hc => h (hc ▸ List.mem_cons_self c rest)
    have hrest : '.' ∉ rest := fun hr => h (List.mem_cons_of_mem c hr)
    simp [afterLastDot, hrest, hc]

/-- Without a dot, the split is one component: the whole list. -/
theorem splitOnDot_no_dot : ∀ l : List Char, '.' ∉ l → splitOnDot l = [l]
  | [], _ => rfl
  | c :: rest, h => by
    have hc : ¬ c = '.' := fun hc => h (hc ▸ List.mem_cons_self c rest)
    have hrest : '.' ∉ rest := fun hr => h (List.mem_cons_of_mem c hr)
    simp [splitOnDot, splitOnDot_no_dot rest hrest, hc]

/-- With a dot present, the split has at least two components. -/
theorem splitOnDot_two_of_dot : ∀ l : List Char, '.' ∈ l → 2 ≤ (splitOnDot l).length
  | [], h => absurd h (List.not_mem_nil _)
  | c :: rest, h => by
    simp only [splitOnDot]
    cases hs : splitOnDot rest with
    | nil => exact absurd hs (splitOnDot_ne_nil rest)
    | cons a t =>
      by_cases hc : c = '.'
      · simp [hc]
      · have hr : '.' ∈ rest := by
          rcases List.mem_cons.1 h with h' | h'
          · exact absurd h'.symm hc
          · exact h'
        have h2 := splitOnDot_two_of_dot rest hr
        rw [hs] at h2
        simp only [List.length_cons] at h2
        simp [hc]
        omega

/-- The last component of the forward split — i.e. the first component of
`rsplit('.')` — is exactly the text after the last dot. -/
theorem splitOnDot_getLast : ∀ l : List Char,
    (splitOnDot l).getLast? = some (afterLastDot l)
  | [] => rfl
  | c :: rest => by
    cases hs : splitOnDot rest with
    | nil => exact absurd hs (splitOnDot_ne_nil rest)
    | cons a t =>
      have ih := splitOnDot_getLast rest
      rw [hs] at ih
      by_cases hc : c = '.'
      · rw [show splitOnDot (c :: rest) = [] :: a :: t by simp [splitOnDot, hs, hc]]
        rw [List.getLast?_cons_cons, ih]
        by_cases hr : '.' ∈ rest
        · simp [afterLastDot, hr, hc]
        · rw [afterLastDot_no_dot rest hr]
          simp [afterLastDot, hr, hc]
      · rw [show splitOnDot (c :: rest) = (c :: a) :: t by simp [splitOnDot, hs, hc]]
        cases t with
        | nil =>
          have hr : '.' ∉ rest := by
            intro hmem
            have h2 := splitOnDot_two_of_dot rest hmem
            rw [hs] at h2
            simp at h2
          have ha : a = rest := by
            have h1 := splitOnDot_no_dot rest hr
            rw [hs] at h1
            simpa using h1
          simp [afterLastDot, hr, hc, ha]
        | cons b t' =>
          have hr : '.' ∈ rest := by
            by_contra hnm
            have h1 := splitOnDot_no_dot rest hnm
            rw [hs] at h1
            simp at h1
          rw [List.getLast?_cons_cons]
          rw [List.getLast?_cons_cons] at ih
          rw [ih]
          simp [afterLastDot, hr]

/-- `is_image_ext` tests exactly the lowercased text after the last dot
against the allow-list. -/
theorem is_image_ext_iff (name : String) : is_image_ext name = true ↔
    asciiLower (String.mk (afterLastDot name.data)) ∈ imageExtAllowList := by
  unfold is_image_ext rsplitNextDot
  rw [splitOnDot_getLast]
  simp [imageExtAllowList, or_assoc]

/-- C9: a `list_dir` entry is classified as an image exactly when it is
not a directory and its extension — the text after the last dot of its
name, lowercased — is on the fixed allow-list; directories are never
images. -/
theorem list_dir_image_classification (path : String) (entries : List RawEntry)
    (e : FileEntry) (he : e ∈ list_dir path entries) :
    e.is_image = true ↔
      e.is_dir = false ∧
        asciiLower (String.mk (afterLastDot e.name.data)) ∈ imageExtAllowList := by
  unfold list_dir at he
  have hmem := (List.perm_insertionSort entryLE _).subset he
  obtain ⟨r, _, rfl⟩ := List.mem_map.1 hmem
  simp only [toFileEntry]
  cases hd : r.is_dir
  · simp [is_image_ext_iff]
  · simp

/-- Witness for C9: `photo.JPG` in a concrete listing is an image. -/
theorem list_dir_image_classification_witness :
    ((⟨"photo.JPG", "/photo.JPG", false, 0, none, true⟩ : FileEntry).is_image = true ↔
      (⟨"photo.JPG", "/photo.JPG", false, 0, none, true⟩ : FileEntry).is_dir = false ∧
        asciiLower (String.mk (afterLastDot
          (⟨"photo.JPG", "/photo.JPG", false, 0, none, true⟩ : FileEntry).name.data)) ∈
          imageExtAllowList) :=
  list_dir_image_classification "/" [⟨"photo.JPG", false, none, none⟩] _ (by decide)

/-- C10: for a name or path with no `'.'`, the rsplit-based extraction
returns the entire string — `rsplit('.').next()` is never `None` (so the
`"bin"` fallback of `cache_image` is unreachable), `is_image_ext` tests
the whole lowercased name against the allow-list (a file named `png` is
an image), and `cache_image` uses the whole remote path as the cache
file's extension. -/
theorem rsplit_whole_string_no_dot :
    (∀ s : String, (rsplitNextDot s).isSome = true) ∧
    (∀ s : String, (∀ c ∈ s.data, c ≠ '.') →
      rsplitNextDot s = some s ∧
      is_image_ext s = imageExtAllowList.contains (asciiLower s) ∧
      (rsplitNextDot s).getD "bin" = s ∧
      ∀ cacheDir : String, cacheImageFile cacheDir s =
        cacheDir ++ "/" ++ b64Url (strBytes s) ++ "." ++ s) := by
  constructor
  · intro s
    unfold rsplitNextDot
    rw [splitOnDot_getLast]
    rfl
  · intro s hnd
    have hnotmem : '.' ∉ s.data := fun hm => hnd '.' hm rfl
    have h1 : rsplitNextDot s = some s := by
      unfold rsplitNextDot
      rw [splitOnDot_getLast, afterLastDot_no_dot s.data hnotmem]
      rfl
    refine ⟨h1, ?_, by rw [h1]; rfl, ?_⟩
    · have hiff := is_image_ext_iff s
      rw [afterLastDot_no_dot s.data hnotmem] at hiff
      have hmk : String.mk s.data = s := rfl
      rw [hmk] at hiff
      cases hc : imageExtAllowList.contains (asciiLower s)
      · cases hie : is_image_ext s
        · rfl
        · exact absurd ((List.elem_iff).2 (hiff.1 hie)) (by simp [List.contains] at hc ⊢; exact hc)
      · cases hie : is_image_ext s
        · exact absurd (hiff.2 ((List.elem_iff).1 (by simpa [List.contains] using hc)))
            (by simp [hie])
        · rfl
    · intro cacheDir
      unfold cacheImageFile
      rw [h1]
      rfl

/-- Witness for C10 at the dotless name `png`. -/
theorem rsplit_whole_string_no_dot_witness :
    rsplitNextDot "png" = some "png" ∧
    is_image_ext "png" = imageExtAllowList.contains (asciiLower "png") ∧
    (rsplitNextDot "png").getD "bin" = "png" := by
  obtain ⟨h1, h2, h3, _⟩ := rsplit_whole_string_no_dot.2 "png" (by decide)
  exact ⟨h1, h2, h3⟩

end OxiDock
